import Mathlib

/-!
Verification of the `rust-server-benchmarks` repository: a shallow embedding
of its wire-protocol codec, latency accounting, load-generation loops and
epoll connection pool, with theorems settling the specification's claims.

Machine integers (`u64`) are modelled as `Nat` together with explicit
`< 2^64` bounds where they matter; byte streams are `List Nat` (each
element a byte value); fallible reads return `Except IOErr`.
-/

namespace Bench

/-- `REQUEST_SIZE` from `protocol.rs`. -/
def REQUEST_SIZE : Nat := 17

/-- `RESPONSE_SIZE` from `protocol.rs`. -/
def RESPONSE_SIZE : Nat := 8

/-- `u64::to_be_bytes`: the eight big-endian bytes of `n % 2^64`. -/
def u64ToBe (n : Nat) : List Nat :=
  [n / 2 ^ 56 % 256, n / 2 ^ 48 % 256, n / 2 ^ 40 % 256, n / 2 ^ 32 % 256,
   n / 2 ^ 24 % 256, n / 2 ^ 16 % 256, n / 2 ^ 8 % 256, n % 256]

/-- `u64::from_be_bytes`: fold eight big-endian bytes back into a number. -/
def u64FromBe (bs : List Nat) : Nat :=
  bs.foldl (fun acc b => acc * 256 + b) 0

/-- `Work` from `protocol.rs` (tag 0 = Constant, 1 = Busy, 2 = Sleep). -/
inductive Work where
  | constant : Work
  | busy (amt : Nat) : Work
  | sleep (micros : Nat) : Work
deriving DecidableEq, Repr

/-- The `u64` payload bound for the `Work` variants. -/
def Work.wf : Work → Prop
  | .constant => True
  | .busy amt => amt < 2 ^ 64
  | .sleep micros => micros < 2 ^ 64

instance : DecidablePred Work.wf := fun w => by
  cases w <;> simp [Work.wf] <;> infer_instance

/-- `Request` from `protocol.rs`. -/
structure Request where
  send_time : Nat
  work : Work
deriving DecidableEq, Repr

/-- `Response` from `protocol.rs`. -/
structure Response where
  client_send_time : Nat
deriving DecidableEq, Repr

/-- `LatencyRecord` from `protocol.rs`. -/
structure LatencyRecord where
  send_time : Nat
  recv_time : Nat
deriving DecidableEq, Repr

/-- The `std::io` error kinds the codec produces. -/
inductive IOErr where
  | unexpectedEof : IOErr
  | invalidData : IOErr
deriving DecidableEq, Repr

/-- `read_exact` into a `k`-byte buffer: takes `k` bytes off the stream or
fails with `UnexpectedEof` when the stream is shorter than `k`. -/
def readExact (k : Nat) (bs : List Nat) : Except IOErr (List Nat × List Nat) :=
  if bs.length < k then .error .unexpectedEof else .ok (bs.take k, bs.drop k)

/-- `impl Serialize for Work` (`protocol.rs` lines 130-149): one tag byte,
then an 8-byte big-endian payload (zeros for `Constant`). -/
def Work.serialize : Work → List Nat
  | .constant => 0 :: List.replicate 8 0
  | .busy amt => 1 :: u64ToBe amt
  | .sleep micros => 2 :: u64ToBe micros

/-- `impl Deserialize for Work` (`protocol.rs` lines 151-181): read the tag
byte, dispatch on it (0, 1, 2, otherwise `InvalidData`), and read the
8-byte payload in every successful branch — also for `Constant`. -/
def Work.deserialize (bs : List Nat) : Except IOErr (Work × List Nat) :=
  match readExact 1 bs with
  | .error e => .error e
  | .ok (idbuf, rest) =>
    let tag := idbuf.headD 0
    if tag = 0 then
      match readExact 8 rest with
      | .error e => .error e
      | .ok (_, rest2) => .ok (.constant, rest2)
    else if tag = 1 then
      match readExact 8 rest with
      | .error e => .error e
      | .ok (amtBytes, rest2) => .ok (.busy (u64FromBe amtBytes), rest2)
    else if tag = 2 then
      match readExact 8 rest with
      | .error e => .error e
      | .ok (microsBytes, rest2) => .ok (.sleep (u64FromBe microsBytes), rest2)
    else .error .invalidData

/-- `impl Serialize for Request` (`protocol.rs` lines 38-44): 8 bytes of
big-endian `send_time` followed by the serialized `Work`. -/
def Request.serialize (r : Request) : List Nat :=
  u64ToBe r.send_time ++ r.work.serialize

/-- `impl Deserialize for Request` (`protocol.rs` lines 46-55): read 8
bytes of `send_time`, then deserialize the `Work`. -/
def Request.deserialize (bs : List Nat) : Except IOErr (Request × List Nat) :=
  match readExact 8 bs with
  | .error e => .error e
  | .ok (stBytes, rest) =>
    match Work.deserialize rest with
    | .error e => .error e
    | .ok (w, rest2) => .ok ({ send_time := u64FromBe stBytes, work := w }, rest2)

/-- `impl Serialize for Response` (`protocol.rs` lines 88-93). -/
def Response.serialize (r : Response) : List Nat :=
  u64ToBe r.client_send_time

/-- `impl Deserialize for Response` (`protocol.rs` lines 95-103). -/
def Response.deserialize (bs : List Nat) : Except IOErr (Response × List Nat) :=
  match readExact 8 bs with
  | .error e => .error e
  | .ok (stBytes, rest) => .ok ({ client_send_time := u64FromBe stBytes }, rest)

/-- `Request::do_work` (`protocol.rs` lines 57-64): execute the work (no
observable effect on the returned value) and echo `send_time`. -/
def Request.do_work (r : Request) : Response :=
  { client_send_time := r.send_time }

theorem u64FromBe_u64ToBe (n : Nat) (h : n < 2 ^ 64) : u64FromBe (u64ToBe n) = n := by
  simp only [u64ToBe, u64FromBe, List.foldl]
  omega

theorem u64ToBe_length (n : Nat) : (u64ToBe n).length = 8 := by
  simp [u64ToBe]

theorem readExact_append (k : Nat) (pre rest : List Nat) (h : pre.length = k) :
    readExact k (pre ++ rest) = .ok (pre, rest) := by
  rw [readExact, if_neg (by simp [h]), List.take_left' h, List.drop_left' h]

theorem readExact_exact (k : Nat) (bs : List Nat) (h : bs.length = k) :
    readExact k bs = .ok (bs, []) := by
  have := readExact_append k bs [] h
  simpa using this

theorem work_round_trip (w : Work) (h : w.wf) :
    Work.deserialize w.serialize = .ok (w, []) := by
  cases w with
  | constant => rfl
  | busy amt =>
    simp only [Work.wf] at h
    simp only [Work.serialize, Work.deserialize]
    rw [show (1 : Nat) :: u64ToBe amt = [1] ++ u64ToBe amt from rfl,
      readExact_append 1 [1] (u64ToBe amt) rfl]
    simp only [List.headD]
    norm_num
    rw [readExact_exact 8 (u64ToBe amt) (u64ToBe_length amt)]
    simp only [u64FromBe_u64ToBe amt h]
  | sleep micros =>
    simp only [Work.wf] at h
    simp only [Work.serialize, Work.deserialize]
    rw [show (2 : Nat) :: u64ToBe micros = [2] ++ u64ToBe micros from rfl,
      readExact_append 1 [2] (u64ToBe micros) rfl]
    simp only [List.headD]
    norm_num
    rw [readExact_exact 8 (u64ToBe micros) (u64ToBe_length micros)]
    simp only [u64FromBe_u64ToBe micros h]

/-- C1: serializing then deserializing a `Request` yields the original
request, and likewise for a `Response`; the encoded `Request` is exactly
17 bytes and the encoded `Response` exactly 8 bytes. -/
theorem codec_round_trip (req : Request) (resp : Response)
    (h1 : req.send_time < 2 ^ 64) (h2 : req.work.wf)
    (h3 : resp.client_send_time < 2 ^ 64) :
    Request.deserialize req.serialize = .ok (req, []) ∧
    req.serialize.length = REQUEST_SIZE ∧
    Response.deserialize resp.serialize = .ok (resp, []) ∧
    resp.serialize.length = RESPONSE_SIZE := by
  obtain ⟨st, w⟩ := req
  obtain ⟨cst⟩ := resp
  have h1b : st < 2 ^ 64 := h1
  have h2b : w.wf := h2
  have h3b : cst < 2 ^ 64 := h3
  refine ⟨?_, ?_, ?_, ?_⟩
  · simp only [Request.deserialize, Request.serialize]
    rw [readExact_append 8 (u64ToBe st) _ (u64ToBe_length st)]
    simp only [work_round_trip w h2b, u64FromBe_u64ToBe st h1b]
  · cases w <;>
      simp [Request.serialize, Work.serialize, u64ToBe_length, REQUEST_SIZE, u64ToBe]
  · simp only [Response.deserialize, Response.serialize]
    rw [readExact_exact 8 (u64ToBe cst) (u64ToBe_length cst)]
    simp only [u64FromBe_u64ToBe cst h3b]
  · simp [Response.serialize, u64ToBe_length, RESPONSE_SIZE]

/-- Witness for `codec_round_trip` at `Request{send_time := 1000, work := Busy 3}`
and `Response{client_send_time := 1000}`. -/
theorem codec_round_trip_witness :
    Request.deserialize (Request.serialize ⟨1000, .busy 3⟩) = .ok (⟨1000, .busy 3⟩, []) ∧
    (Request.serialize ⟨1000, .busy 3⟩).length = REQUEST_SIZE := by
  have h := codec_round_trip ⟨1000, .busy 3⟩ ⟨1000⟩ (by norm_num) (by norm_num [Work.wf])
    (by norm_num)
  exact ⟨h.1, h.2.1⟩

/-- C9: on any 17-byte frame, `Request::deserialize` succeeds — consuming
the whole frame, including the 8-byte payload even for the `Constant` tag —
exactly when the tag byte at offset 8 is in `{0, 1, 2}`, and fails with
`InvalidData` otherwise. -/
theorem decode_request_tag (bs : List Nat) (h : bs.length = 17) :
    (bs.getD 8 0 = 0 ∨ bs.getD 8 0 = 1 ∨ bs.getD 8 0 = 2 →
      ∃ req, Request.deserialize bs = .ok (req, [])) ∧
    (¬ (bs.getD 8 0 = 0 ∨ bs.getD 8 0 = 1 ∨ bs.getD 8 0 = 2) →
      Request.deserialize bs = .error .invalidData) := by
  have h8 : (8 : Nat) < bs.length := by omega
  have hlen9 : (bs.drop 9).length = 8 := by simp [h]
  have hdrop : bs.drop 8 = bs.getD 8 0 :: bs.drop 9 := by
    rw [List.getD_eq_getElem bs 0 h8]; exact List.drop_eq_getElem_cons h8
  have hre : readExact 8 bs = .ok (bs.take 8, bs.drop 8) := by
    rw [readExact, if_neg (by omega)]
  have hwork : ∀ t : Nat, Work.deserialize (t :: bs.drop 9) =
      if t = 0 then .ok (.constant, [])
      else if t = 1 then .ok (.busy (u64FromBe (bs.drop 9)), [])
      else if t = 2 then .ok (.sleep (u64FromBe (bs.drop 9)), [])
      else .error .invalidData := by
    intro t
    simp only [Work.deserialize]
    rw [show t :: bs.drop 9 = [t] ++ bs.drop 9 from rfl, readExact_append 1 [t] _ rfl]
    simp only [List.headD]
    by_cases h0 : t = 0
    · simp [h0, readExact_exact 8 (bs.drop 9) hlen9]
    · by_cases h1 : t = 1
      · simp [h0, h1, readExact_exact 8 (bs.drop 9) hlen9]
      · by_cases h2 : t = 2
        · simp [h0, h1, h2, readExact_exact 8 (bs.drop 9) hlen9]
        · simp [h0, h1, h2]
  have hmain : Request.deserialize bs =
      match Work.deserialize (bs.drop 8) with
      | .error e => .error e
      | .ok (w, rest2) => .ok ({ send_time := u64FromBe (bs.take 8), work := w }, rest2) := by
    simp only [Request.deserialize, hre]
  rw [hdrop, hwork] at hmain
  constructor
  · rintro (h0 | h1 | h2)
    · exact ⟨⟨u64FromBe (bs.take 8), .constant⟩, by rw [hmain, h0]; norm_num⟩
    · exact ⟨⟨u64FromBe (bs.take 8), .busy (u64FromBe (bs.drop 9))⟩,
        by rw [hmain, h1]; norm_num⟩
    · exact ⟨⟨u64FromBe (bs.take 8), .sleep (u64FromBe (bs.drop 9))⟩,
        by rw [hmain, h2]; norm_num⟩
  · intro hn
    push_neg at hn
    obtain ⟨hn0, hn1, hn2⟩ := hn
    rw [hmain, if_neg hn0, if_neg hn1, if_neg hn2]

/-- Witness for `decode_request_tag`: a 17-byte frame with tag 2 decodes,
and the same frame with tag 3 is rejected with `InvalidData`. -/
theorem decode_request_tag_witness :
    (∃ req, Request.deserialize [0, 0, 0, 0, 0, 0, 0, 0, 2, 0, 0, 0, 0, 0, 0, 0, 9] =
      .ok (req, [])) ∧
    Request.deserialize [0, 0, 0, 0, 0, 0, 0, 0, 3, 0, 0, 0, 0, 0, 0, 0, 9] =
      .error .invalidData := by
  constructor
  · exact (decode_request_tag [0, 0, 0, 0, 0, 0, 0, 0, 2, 0, 0, 0, 0, 0, 0, 0, 9]
      (by decide)).1 (by decide)
  · exact (decode_request_tag [0, 0, 0, 0, 0, 0, 0, 0, 3, 0, 0, 0, 0, 0, 0, 0, 9]
      (by decide)).2 (by decide)

/-!
### Latency accounting (`Response::to_latency_record`, `protocol.rs` lines 72-86)

`get_time()` (in `utils.rs`) samples the wall clock. The clock is modelled
as a stream `clock : Nat → Nat` of successive samples and a counter of how
many samples have been consumed; each call to `get_time` consumes the next
sample. `to_latency_record` returns `none` where the Rust panics.
-/

/-- `Response::to_latency_record` as written in the source: it calls
`get_time()` once for the panic check and then calls `get_time()` a second
time for the stored `recv_time`. The returned counter records how many
clock samples were consumed. -/
def Response.to_latency_record (r : Response) (clock : Nat → Nat) (t : Nat) :
    Option (LatencyRecord × Nat) :=
  let send_time := r.client_send_time
  let recv_time := clock t
  if recv_time < send_time then none
  else some ({ send_time := r.client_send_time, recv_time := clock (t + 1) }, t + 2)

/-- A clock whose first sample is 10 and whose second sample is 3 (the wall
clock stepped backwards between the two `get_time()` calls). -/
def anomalousClock : Nat → Nat := fun t => if t = 0 then 10 else 3

/-- C2: `to_latency_record` does not evaluate the wall-clock sample exactly
once: it consumes two samples, validates the first and stores the second,
so with `send_time = 5` and samples `10, 3` it returns — without raising
the fatal error — a `LatencyRecord` with `recv_time = 3 < 5 = send_time`. -/
theorem to_latency_record_double_sample :
    Response.to_latency_record ⟨5⟩ anomalousClock 0 =
      some ({ send_time := 5, recv_time := 3 }, 2) ∧
    (3 : Nat) < 5 := by
  constructor
  · rfl
  · decide

/-!
### The thread-pool server's `_handle_client` (`src/bin/server/threadpool/mod.rs`)

One loop iteration of `_handle_client`: deserialize a request from the
17-byte frame, run its work (no observable effect on the reply), and build
the response. The source builds `Response { client_send_time: get_time() }`
from the server's own clock; `serverClock` is the value `get_time()`
returns there.
-/

/-- One request/response iteration of `_handle_client` from
`src/bin/server/threadpool/mod.rs` lines 20-43: on a decode error the loop
breaks (`none`); otherwise it executes the work and replies with
`Response { client_send_time: get_time() }`. -/
def handle_client_iter (reqBytes : List Nat) (serverClock : Nat) : Option (List Nat) :=
  match Request.deserialize reqBytes with
  | .error _ => none
  | .ok (req, _) =>
    let _ := req.work
    some (Response.serialize { client_send_time := serverClock })

/-- C8: the thread-pool server does not echo the request's `send_time`: for
the request `{send_time := 1000, work := Constant}` processed while the
server clock reads 7777, the 8 serialized response bytes are the big-endian
bytes of 7777, not the request's first 8 bytes (the big-endian bytes of
1000), although `Request::do_work` itself does echo `send_time`. -/
theorem handle_client_no_echo :
    handle_client_iter (Request.serialize ⟨1000, .constant⟩) 7777 =
      some (u64ToBe 7777) ∧
    (Request.serialize ⟨1000, .constant⟩).take 8 = u64ToBe 1000 ∧
    u64ToBe 7777 ≠ u64ToBe 1000 ∧
    (Request.do_work ⟨1000, .constant⟩).client_send_time = 1000 := by
  refine ⟨rfl, ?_, by decide, rfl⟩
  exact List.take_left' (u64ToBe_length 1000)

/-!
### Load-generation loops (`closed_loop.rs`, `open_loop.rs`)

Timing is modelled by oracles: `check i` is the monotonic
`client_start.elapsed()` observed at the top of iteration `i`, and `pre i`
is the `start.elapsed()` observed at the `excess_duration += start.elapsed()`
line of iteration `i` (before the busy spin, which is therefore never part
of the accumulated excess). Loops are fueled; `none` means the fuel ran out
before the loop terminated.
-/

/-- The pacing computation of `closed_loop.rs` lines 76-79 and
`open_loop.rs` lines 109-112, in source order: the iteration's pre-spin
elapsed time is added to `excess_duration` first, then
`excess_delay = min(excess_duration, delay)`,
`busy_wait_time = delay - excess_delay`, `excess_duration -= excess_delay`.
Returns `(busy_wait_time, new excess_duration)`. -/
def paceUpdate (delay excess elapsedPre : Nat) : Nat × Nat :=
  let excess1 := excess + elapsedPre
  let excessDelay := min excess1 delay
  (delay - excessDelay, excess1 - excessDelay)

/-- The pacing iteration in the order the claim states it: `busy_wait` is
computed from the pre-iteration `excess_duration`, the spent minimum is
subtracted, and only after the busy spin is the whole iteration's elapsed
time (`elapsedPre` plus the spin time `spin`) added to `excess_duration`. -/
def claimPaceUpdate (delay excess elapsedPre spin : Nat) : Nat × Nat :=
  let excessDelay := min excess delay
  let busyWait := delay - excessDelay
  (busyWait, excess - excessDelay + (elapsedPre + spin))

/-- One closed-loop client (`closed_loop.rs` `_run_client`): while
`client_start.elapsed() < runtime`, send a request, receive the response,
push its latency record (`lrec i` for iteration `i`), and pace. Arguments
after the oracles: fuel, iteration index, `excess_duration`. Returns
`(requests sent, latency records)`. -/
def closedClient (runtime delay : Nat) (check pre : Nat → Nat)
    (lrec : Nat → LatencyRecord) : Nat → Nat → Nat → Option (Nat × List LatencyRecord)
  | 0, _, _ => none
  | fuel + 1, i, excess =>
    if check i < runtime then
      match closedClient runtime delay check pre lrec fuel (i + 1)
          (paceUpdate delay excess (pre i)).2 with
      | none => none
      | some (n, lrs) => some (n + 1, lrec i :: lrs)
    else some (0, [])

/-- Externally visible events of the open-loop sender. -/
inductive Ev where
  | send : Ev
  | setDone : Ev
deriving DecidableEq, Repr

/-- The open-loop sender (`open_loop.rs` `_run_sender`): each iteration it
computes `is_last = client_start.elapsed() >= runtime`; when `is_last` it
stores the `done` flag, sends one more request and returns `requests_sent`
without incrementing it; otherwise it sends, increments `requests_sent`,
and paces. Arguments after the oracles: fuel, iteration index,
`requests_sent`, `excess_duration`, event trace so far. -/
def openSender (runtime delay : Nat) (check pre : Nat → Nat) :
    Nat → Nat → Nat → Nat → List Ev → Option (Nat × List Ev)
  | 0, _, _, _, _ => none
  | fuel + 1, i, n, excess, tr =>
    if runtime ≤ check i then
      some (n, tr ++ [.setDone, .send])
    else
      openSender runtime delay check pre fuel (i + 1) (n + 1)
        (paceUpdate delay excess (pre i)).2 (tr ++ [.send])

/-- The open-loop receiver (`open_loop.rs` `_run_receiver`): while the
`done` flag has not been observed (`doneAt i` is the value the `i`-th
`done.load` returns), block for the next response and push its latency
record (`lrec`). `none` models the receiver blocking forever on a read for
which no response ever arrives. -/
def openReceiver (doneAt : Nat → Bool) (lrec : Response → LatencyRecord) :
    Nat → Nat → List Response → List LatencyRecord → Option (List LatencyRecord)
  | 0, _, _, _ => none
  | fuel + 1, i, resps, acc =>
    if doneAt i then some acc
    else
      match resps with
      | [] => none
      | r :: rest => openReceiver doneAt lrec fuel (i + 1) rest (acc ++ [lrec r])

theorem closedClient_zero (runtime delay : Nat) (check pre : Nat → Nat)
    (lrec : Nat → LatencyRecord) (i excess : Nat) :
    closedClient runtime delay check pre lrec 0 i excess = none := rfl

theorem closedClient_succ (runtime delay : Nat) (check pre : Nat → Nat)
    (lrec : Nat → LatencyRecord) (fuel i excess : Nat) :
    closedClient runtime delay check pre lrec (fuel + 1) i excess =
      if check i < runtime then
        match closedClient runtime delay check pre lrec fuel (i + 1)
            (paceUpdate delay excess (pre i)).2 with
        | none => none
        | some (n, lrs) => some (n + 1, lrec i :: lrs)
      else some (0, []) := rfl

theorem openSender_zero (runtime delay : Nat) (check pre : Nat → Nat)
    (i n excess : Nat) (tr : List Ev) :
    openSender runtime delay check pre 0 i n excess tr = none := rfl

theorem openSender_succ (runtime delay : Nat) (check pre : Nat → Nat)
    (fuel i n excess : Nat) (tr : List Ev) :
    openSender runtime delay check pre (fuel + 1) i n excess tr =
      if runtime ≤ check i then
        some (n, tr ++ [.setDone, .send])
      else
        openSender runtime delay check pre fuel (i + 1) (n + 1)
          (paceUpdate delay excess (pre i)).2 (tr ++ [.send]) := rfl

theorem openReceiver_zero (doneAt : Nat → Bool) (lrec : Response → LatencyRecord)
    (i : Nat) (resps : List Response) (acc : List LatencyRecord) :
    openReceiver doneAt lrec 0 i resps acc = none := rfl

theorem openReceiver_succ (doneAt : Nat → Bool) (lrec : Response → LatencyRecord)
    (fuel i : Nat) (resps : List Response) (acc : List LatencyRecord) :
    openReceiver doneAt lrec (fuel + 1) i resps acc =
      if doneAt i then some acc
      else
        match resps with
        | [] => none
        | r :: rest => openReceiver doneAt lrec fuel (i + 1) rest (acc ++ [lrec r]) := rfl

theorem openSender_spec (runtime delay : Nat) (check pre : Nat → Nat) :
    ∀ (fuel i n excess : Nat) (tr : List Ev) (res : Nat) (tr2 : List Ev),
      openSender runtime delay check pre fuel i n excess tr = some (res, tr2) →
      ∃ k, res = n + k ∧
        tr2 = tr ++ (List.replicate k .send ++ [.setDone, .send]) ∧
        (∀ j, j < k → check (i + j) < runtime) ∧
        runtime ≤ check (i + k) := by
  intro fuel
  induction fuel with
  | zero =>
    intro i n excess tr res tr2 h
    rw [openSender_zero] at h
    exact absurd h (by simp)
  | succ fuel ih =>
    intro i n excess tr res tr2 h
    rw [openSender_succ] at h
    by_cases hc : runtime ≤ check i
    · rw [if_pos hc] at h
      injection h with h1
      injection h1 with hn htr
      subst hn
      subst htr
      refine ⟨0, by omega, by simp, by intro j hj; omega, by simpa using hc⟩
    · rw [if_neg hc] at h
      obtain ⟨k, hk1, hk2, hk3, hk4⟩ := ih _ _ _ _ _ _ h
      refine ⟨k + 1, by omega, ?_, ?_, ?_⟩
      · rw [hk2, List.replicate_succ]
        simp
      · intro j hj
        cases j with
        | zero => simpa using Nat.lt_of_not_le hc
        | succ j =>
          have hlt := hk3 j (by omega)
          have harith : i + 1 + j = i + (j + 1) := by omega
          rwa [harith] at hlt
      · have harith : i + 1 + k = i + (k + 1) := by omega
        rwa [harith] at hk4

theorem openReceiver_spec (doneAt : Nat → Bool) (lrec : Response → LatencyRecord) :
    ∀ (fuel i : Nat) (resps : List Response) (acc lrs : List LatencyRecord),
      openReceiver doneAt lrec fuel i resps acc = some lrs →
      lrs.length ≤ acc.length + resps.length := by
  intro fuel
  induction fuel with
  | zero =>
    intro i resps acc lrs h
    rw [openReceiver_zero] at h
    exact absurd h (by simp)
  | succ fuel ih =>
    intro i resps acc lrs h
    rw [openReceiver_succ] at h
    by_cases hc : doneAt i = true
    · rw [if_pos hc] at h
      injection h with h1
      subst h1
      omega
    · rw [if_neg hc] at h
      cases resps with
      | nil => exact absurd h (by simp)
      | cons r rest =>
        have hb := ih _ _ _ _ h
        simp at hb ⊢
        omega

theorem closedClient_count (runtime delay : Nat) (check pre : Nat → Nat)
    (lrec : Nat → LatencyRecord) :
    ∀ (fuel i excess n : Nat) (lrs : List LatencyRecord),
      closedClient runtime delay check pre lrec fuel i excess = some (n, lrs) →
      lrs.length = n := by
  intro fuel
  induction fuel with
  | zero =>
    intro i excess n lrs h
    rw [closedClient_zero] at h
    exact absurd h (by simp)
  | succ fuel ih =>
    intro i excess n lrs h
    rw [closedClient_succ] at h
    by_cases hc : check i < runtime
    · rw [if_pos hc] at h
      cases hrec : closedClient runtime delay check pre lrec fuel (i + 1)
          (paceUpdate delay excess (pre i)).2 with
      | none =>
        rw [hrec] at h
        exact absurd h (by simp)
      | some p =>
        obtain ⟨m, mlrs⟩ := p
        rw [hrec] at h
        injection h with h1
        injection h1 with h1 h2
        subst h1
        subst h2
        simp [ih _ _ _ _ hrec]
    · rw [if_neg hc] at h
      injection h with h1
      injection h1 with h1 h2
      subst h1
      subst h2
      rfl

/-- C5: when the open-loop sender's elapsed-time check first reaches the
runtime, it sets the shared `done` flag and then sends exactly one further
request and returns: the event trace is `res` paced sends followed by
`setDone` and a single final `send` (the set strictly precedes the last
send, and no send other than that one follows the set); every iteration
before `res` observed an elapsed time below the runtime and iteration
`res` is the first to reach it. -/
theorem sender_done_then_one_send (runtime delay : Nat) (check pre : Nat → Nat)
    (fuel res : Nat) (tr : List Ev)
    (h : openSender runtime delay check pre fuel 0 0 0 [] = some (res, tr)) :
    tr = List.replicate res .send ++ [.setDone, .send] ∧
    (∀ j, j < res → check j < runtime) ∧
    runtime ≤ check res := by
  obtain ⟨k, hk1, hk2, hk3, hk4⟩ :=
    openSender_spec runtime delay check pre fuel 0 0 0 [] res tr h
  have hres : k = res := by omega
  subst hres
  refine ⟨by simpa using hk2, ?_, by simpa using hk4⟩
  intro j hj
  simpa using hk3 j hj

/-- Witness for `sender_done_then_one_send`: with `runtime = 3`,
`check i = i` and fuel 10, the sender returns `requests_sent = 3` with the
trace `[send, send, send, setDone, send]`. -/
theorem sender_done_then_one_send_witness :
    openSender 3 10 (fun i => i) (fun _ => 0) 10 0 0 0 [] =
      some (3, [.send, .send, .send, .setDone, .send]) ∧
    [Ev.send, .send, .send, .setDone, .send] =
      List.replicate 3 Ev.send ++ [.setDone, .send] := by
  constructor
  · rfl
  · exact (sender_done_then_one_send 3 10 (fun i => i) (fun _ => 0) 10 3
      [.send, .send, .send, .setDone, .send] rfl).1

/-- C3 counterexample: an open-loop sender run that transmits four requests
(three paced ones plus the final one sent after the `done` flag is set) yet
returns `requests_sent = 3`: the sender's `return requests_sent` runs
before the increment on the last iteration, so the final transmitted
request is not counted, contrary to the claim. -/
theorem open_loop_final_send_uncounted :
    openSender 3 10 (fun i => i) (fun _ => 0) 10 0 0 0 [] =
      some (3, [.send, .send, .send, .setDone, .send]) ∧
    List.count .send [Ev.send, .send, .send, .setDone, .send] = 4 ∧
    (4 : Nat) ≠ 3 := by
  refine ⟨rfl, by decide, by decide⟩

/-- C3 (amended): the closed-loop client returns exactly one latency record
per request it sent; the open-loop sender returns `requests_sent` counting
every transmitted request except the final one sent after the `done` flag
is set (the trace carries `requests_sent + 1` sends); the open-loop
receiver returns at most one latency record per response that arrives, so
with at most one response per transmitted request its record count is at
most `requests_sent + 1`. -/
theorem request_record_counts :
    (∀ (runtime delay : Nat) (check pre : Nat → Nat) (lrec : Nat → LatencyRecord)
        (fuel i excess n : Nat) (lrs : List LatencyRecord),
      closedClient runtime delay check pre lrec fuel i excess = some (n, lrs) →
      lrs.length = n) ∧
    (∀ (runtime delay : Nat) (check pre : Nat → Nat) (fuel res : Nat) (tr : List Ev),
      openSender runtime delay check pre fuel 0 0 0 [] = some (res, tr) →
      tr.count .send = res + 1) ∧
    (∀ (doneAt : Nat → Bool) (lrec : Response → LatencyRecord) (fuel : Nat)
        (resps : List Response) (lrs : List LatencyRecord),
      openReceiver doneAt lrec fuel 0 resps [] = some lrs →
      lrs.length ≤ resps.length) := by
  refine ⟨?_, ?_, ?_⟩
  · intro runtime delay check pre lrec fuel i excess n lrs h
    exact closedClient_count runtime delay check pre lrec fuel i excess n lrs h
  · intro runtime delay check pre fuel res tr h
    obtain ⟨k, hk1, hk2, hk3, hk4⟩ :=
      openSender_spec runtime delay check pre fuel 0 0 0 [] res tr h
    have hres : k = res := by omega
    subst hres
    rw [hk2]
    simp [List.count_append, List.count_replicate]
  · intro doneAt lrec fuel resps lrs h
    simpa using openReceiver_spec doneAt lrec fuel 0 resps [] lrs h

/-- Witness for `request_record_counts`: a concrete 3-iteration closed-loop
run yields exactly 3 latency records, a concrete open-loop sender trace
carries `3 + 1` sends, and a concrete receiver run returns no more records
than there are responses. -/
theorem request_record_counts_witness :
    closedClient 3 10 (fun i => i) (fun _ => 0) (fun i => ⟨i, i⟩) 10 0 0 =
      some (3, [⟨0, 0⟩, ⟨1, 1⟩, ⟨2, 2⟩]) ∧
    ([(⟨0, 0⟩ : LatencyRecord), ⟨1, 1⟩, ⟨2, 2⟩].length = 3) ∧
    List.count Ev.send [.send, .send, .send, .setDone, .send] = 3 + 1 ∧
    openReceiver (fun i => decide (2 ≤ i)) (fun r => ⟨r.client_send_time, 9⟩) 10 0
      [⟨1⟩, ⟨2⟩, ⟨3⟩] [] = some [⟨1, 9⟩, ⟨2, 9⟩] ∧
    ([(⟨1, 9⟩ : LatencyRecord), ⟨2, 9⟩].length ≤ ([(⟨1⟩ : Response), ⟨2⟩, ⟨3⟩]).length) := by
  refine ⟨rfl, ?_, ?_, rfl, ?_⟩
  · exact request_record_counts.1 3 10 (fun i => i) (fun _ => 0) (fun i => ⟨i, i⟩)
      10 0 0 3 [⟨0, 0⟩, ⟨1, 1⟩, ⟨2, 2⟩] rfl
  · exact request_record_counts.2.1 3 10 (fun i => i) (fun _ => 0) 10 3
      [.send, .send, .send, .setDone, .send] rfl
  · exact request_record_counts.2.2 (fun i => decide (2 ≤ i))
      (fun r => ⟨r.client_send_time, 9⟩) 10 [⟨1⟩, ⟨2⟩, ⟨3⟩] [⟨1, 9⟩, ⟨2, 9⟩] rfl

/-- C4 counterexample: with `delay = 10`, iteration-start `excess_duration
= 0` and pre-spin elapsed time 3, the source computes `busy_wait = 7`
because it adds the elapsed time to the excess before taking the minimum,
while the iteration as the claim orders it — `busy_wait = delay −
min(excess_duration, delay)` before any elapsed time is added — yields
`busy_wait = 10`. -/
theorem pacing_order_counterexample :
    (paceUpdate 10 0 3).1 = 7 ∧ (claimPaceUpdate 10 0 3 7).1 = 10 ∧ (7 : Nat) ≠ 10 := by
  decide

/-- C4 (amended): each pacing iteration first adds the iteration's pre-spin
elapsed time to `excess_duration`, then computes `busy_wait = delay −
min(excess_duration, delay)` and subtracts that minimum from
`excess_duration`, then busy-spins for `busy_wait` (spin time is never added
to the excess); accumulated overrun only shrinks the busy-wait and never
skips a send: the number of requests a closed-loop run sends is independent
of the incoming `excess_duration`. -/
theorem pacing_excess_carry :
    (∀ delay excess pre,
      paceUpdate delay excess pre =
        (delay - min (excess + pre) delay, excess + pre - min (excess + pre) delay)) ∧
    (∀ (runtime delay : Nat) (check pre : Nat → Nat) (lrec : Nat → LatencyRecord)
        (fuel i e1 e2 : Nat),
      (closedClient runtime delay check pre lrec fuel i e1).map Prod.fst =
      (closedClient runtime delay check pre lrec fuel i e2).map Prod.fst) := by
  constructor
  · intro delay excess pre
    rfl
  · intro runtime delay check pre lrec fuel
    induction fuel with
    | zero => intro i e1 e2; rfl
    | succ fuel ih =>
      intro i e1 e2
      rw [closedClient_succ, closedClient_succ]
      by_cases hc : check i < runtime
      · rw [if_pos hc, if_pos hc]
        have hmap := ih (i + 1) (paceUpdate delay e1 (pre i)).2 (paceUpdate delay e2 (pre i)).2
        cases h1 : closedClient runtime delay check pre lrec fuel (i + 1)
            (paceUpdate delay e1 (pre i)).2 with
        | none =>
          cases h2 : closedClient runtime delay check pre lrec fuel (i + 1)
              (paceUpdate delay e2 (pre i)).2 with
          | none => rfl
          | some p =>
            rw [h1, h2] at hmap
            exact absurd hmap (by simp)
        | some p =>
          cases h2 : closedClient runtime delay check pre lrec fuel (i + 1)
              (paceUpdate delay e2 (pre i)).2 with
          | none =>
            rw [h1, h2] at hmap
            exact absurd hmap (by simp)
          | some q =>
            obtain ⟨n1, l1⟩ := p
            obtain ⟨n2, l2⟩ := q
            rw [h1, h2] at hmap
            simp at hmap
            simp [hmap]
      · rw [if_neg hc, if_neg hc]

/-!
### The epoll worker's connection pool (`src/bin/server/epoll.rs`)

Sockets are identified by numeric handles. The Rust free list is a `Vec`
used as a stack through `push`/`pop` at the tail; it is modelled with the
stack top at the head (`pop` takes the head, `push` conses), so the initial
`vec![0, 1, …, capacity-1]` becomes `[capacity-1, …, 1, 0]`.
-/

/-- `Action` from `epoll.rs`. -/
inductive Action where
  | read : Action
  | write : Action
deriving DecidableEq, Repr

/-- `Connection` from `epoll.rs`: `stream = none` mirrors the
`Option<TcpStream>` field being `None` (a dropped — closed — socket);
`buf` models the `Cursor<Vec<u8>>` contents and `bufPos` its position. -/
structure Connection where
  stream : Option Nat
  buf : List Nat
  bufPos : Nat
  idx : Nat
  action : Action
deriving DecidableEq, Repr

/-- `Vec::resize(size, 0)`: truncate, or pad with zeros. -/
def listResize (l : List Nat) (size : Nat) : List Nat :=
  l.take size ++ List.replicate (size - l.length) 0

/-- `Connection::new` (`epoll.rs` lines 55-62). -/
def Connection.new (stream : Option Nat) : Connection :=
  { stream := stream, buf := List.replicate REQUEST_SIZE 0, bufPos := 0, idx := 0,
    action := .read }

/-- `Connection::init` (`epoll.rs` lines 64-66). -/
def Connection.init (c : Connection) (stream : Nat) : Connection :=
  { c with stream := some stream }

/-- `Connection::reset` (`epoll.rs` lines 68-81): resize the buffer for the
new state, set `stream := none` (the source comment reads "drop the
connection"), zero the position and the index, and set the action. -/
def Connection.reset (c : Connection) (state : Action) : Connection :=
  { stream := none,
    buf := listResize c.buf (match state with | .read => REQUEST_SIZE | .write => RESPONSE_SIZE),
    bufPos := 0, idx := 0, action := state }

/-- `Epoll` from `epoll.rs`: the slab of connection slots, the free list of
slot ids, and — standing for the kernel-side interest list of `epoll_fd`,
keyed by the slot id carried as user data — one optional interest per
slot. -/
structure Epoll where
  capacity : Nat
  conns : List Connection
  id_pool : List Nat
  interests : List (Option Action)
deriving DecidableEq, Repr

/-- `Epoll::new` (`epoll.rs` lines 146-159). -/
def Epoll.new (capacity : Nat) : Epoll :=
  { capacity := capacity,
    conns := List.replicate capacity (Connection.new none),
    id_pool := (List.range capacity).reverse,
    interests := List.replicate capacity none }

/-- `Epoll::add` (`epoll.rs` lines 162-176): pop a slot id off the free
list — the `.expect("cannot add a connection while connection pool is
full.")` panic on an empty pool is modelled as `none` — register read
interest under that id, and store the socket in the slot. Returns the new
state and the id used. -/
def Epoll.add (s : Epoll) (stream : Nat) : Option (Epoll × Nat) :=
  match s.id_pool with
  | [] => none
  | id :: rest =>
    some ({ s with
      id_pool := rest,
      interests := s.interests.set id (some .read),
      conns := s.conns.set id ((s.conns.getD id (Connection.new none)).init stream) }, id)

/-- `Epoll::delete` (`epoll.rs` lines 179-189): look up the slot's stream —
the `.expect("connection not in use.")` panic is modelled as `none` —
remove the readiness interest, reset the connection to `Read`, and push
the id back onto the free list. -/
def Epoll.delete (s : Epoll) (id : Nat) : Option Epoll :=
  match (s.conns.getD id (Connection.new none)).stream with
  | none => none
  | some _ =>
    some { s with
      interests := s.interests.set id none,
      conns := s.conns.set id ((s.conns.getD id (Connection.new none)).reset .read),
      id_pool := id :: s.id_pool }

/-- `Epoll::modify` (`epoll.rs` lines 191-206): look up the slot's stream
(panic, modelled as `none`, if unused), change the readiness interest
(`EPOLLIN` for `Read`, `EPOLLOUT` otherwise), and reset the connection to
the new state. -/
def Epoll.modify (s : Epoll) (id : Nat) (state : Action) : Option Epoll :=
  match (s.conns.getD id (Connection.new none)).stream with
  | none => none
  | some _ =>
    some { s with
      interests := s.interests.set id (some state),
      conns := s.conns.set id ((s.conns.getD id (Connection.new none)).reset state) }

/-- `Epoll::is_empty` (`epoll.rs` lines 224-226). -/
def Epoll.is_empty (s : Epoll) : Bool := s.id_pool.length == s.capacity

/-- `Epoll::is_full` (`epoll.rs` lines 229-231). -/
def Epoll.is_full (s : Epoll) : Bool := s.id_pool.isEmpty

/-- The number of slots currently holding a socket. -/
def Epoll.inUseCount (s : Epoll) : Nat :=
  ((List.range s.capacity).filter
    (fun i => ((s.conns.getD i (Connection.new none)).stream).isSome)).length

/-- Well-formedness of the connection pool: slab and interest table have
`capacity` entries, the free list holds no duplicates, every free id is a
valid slot index, and an id is in the free list exactly when its slot
holds no socket. -/
def Epoll.WF (s : Epoll) : Prop :=
  s.conns.length = s.capacity ∧
  s.interests.length = s.capacity ∧
  s.id_pool.Nodup ∧
  (∀ i ∈ s.id_pool, i < s.capacity) ∧
  (∀ i, i < s.capacity →
    (i ∈ s.id_pool ↔ (s.conns.getD i (Connection.new none)).stream = none))

instance (s : Epoll) : Decidable s.WF := by
  unfold Epoll.WF
  infer_instance

theorem getD_set_ne {α : Type} (l : List α) (i j : Nat) (a d : α) (h : i ≠ j) :
    (l.set i a).getD j d = l.getD j d := by
  rw [List.getD_eq_getElem?_getD, List.getD_eq_getElem?_getD, List.getElem?_set_ne h]

theorem getD_set_self {α : Type} (l : List α) (i : Nat) (a d : α) (h : i < l.length) :
    (l.set i a).getD i d = a := by
  rw [List.getD_eq_getElem?_getD, List.getElem?_set]
  simp [h]

theorem getD_replicate {α : Type} (n i : Nat) (x d : α) (h : i < n) :
    (List.replicate n x).getD i d = x := by
  rw [List.getD_eq_getElem?_getD, List.getElem?_replicate]
  simp [h]

theorem Epoll.new_WF (c : Nat) : (Epoll.new c).WF := by
  refine ⟨?_, ?_, ?_, ?_, ?_⟩ <;> dsimp only [Epoll.new, Epoll.WF]
  · simp
  · simp
  · simp only [List.nodup_reverse]
    exact List.nodup_range c
  · intro i hi
    simpa using hi
  · intro i hi
    simp only [List.mem_reverse, List.mem_range]
    rw [getD_replicate c i (Connection.new none) (Connection.new none) hi]
    simp [Connection.new, hi]

theorem Epoll.add_WF (s : Epoll) (t : Nat) (s2 : Epoll) (id : Nat)
    (hWF : s.WF) (h : s.add t = some (s2, id)) :
    s2.WF ∧ id < s.capacity ∧ id ∉ s2.id_pool ∧ s2.capacity = s.capacity ∧
    s2.id_pool.length + 1 = s.id_pool.length ∧
    (∀ j, j ∉ s.id_pool → j ∉ s2.id_pool) := by
  obtain ⟨hc, hi, hnd, hb, hiff⟩ := hWF
  cases hp : s.id_pool with
  | nil =>
    rw [Epoll.add, hp] at h
    exact absurd h (by simp)
  | cons pid rest =>
    rw [Epoll.add, hp] at h
    simp only [Option.some.injEq, Prod.mk.injEq] at h
    obtain ⟨hs2, hid⟩ := h
    subst hid
    subst hs2
    rw [hp] at hnd
    have hidrest : pid ∉ rest := (List.nodup_cons.1 hnd).1
    have hndrest : rest.Nodup := (List.nodup_cons.1 hnd).2
    have hmem : pid ∈ s.id_pool := by rw [hp]; exact List.mem_cons_self pid rest
    have hidlt : pid < s.capacity := hb pid hmem
    have hidnone : (s.conns.getD pid (Connection.new none)).stream = none :=
      (hiff pid hidlt).1 hmem
    refine ⟨⟨by simpa using hc, by simpa using hi, hndrest, ?_, ?_⟩, hidlt, hidrest,
      rfl, by simp [hp], ?_⟩
    · intro i hi2
      exact hb i (by rw [hp]; exact List.mem_cons_of_mem pid hi2)
    · intro i hilt
      by_cases hij : i = pid
      · subst hij
        rw [getD_set_self s.conns i _ (Connection.new none) (by omega)]
        simp [Connection.init, hidrest]
      · rw [getD_set_ne s.conns pid i _ (Connection.new none) (fun hh => hij hh.symm)]
        rw [← hiff i hilt, hp]
        simp [List.mem_cons, hij]
    · intro j hj hj2
      exact hj (List.mem_cons_of_mem pid (by simpa using hj2))

theorem Epoll.delete_WF (s : Epoll) (id : Nat) (s2 : Epoll)
    (hWF : s.WF) (h : s.delete id = some s2) :
    s2.WF ∧ id < s.capacity ∧ id ∈ s2.id_pool ∧ s2.capacity = s.capacity ∧
    s2.id_pool.length = s.id_pool.length + 1 ∧
    (∀ j, j ∉ s.id_pool → j ≠ id → j ∉ s2.id_pool) := by
  obtain ⟨hc, hi, hnd, hb, hiff⟩ := hWF
  cases hs : (s.conns.getD id (Connection.new none)).stream with
  | none =>
    rw [Epoll.delete, hs] at h
    exact absurd h (by simp)
  | some v =>
    rw [Epoll.delete, hs] at h
    injection h with h1
    subst h1
    have hidlt : id < s.capacity := by
      by_contra hge
      have hdef : (s.conns.getD id (Connection.new none)) = Connection.new none :=
        List.getD_eq_default s.conns (Connection.new none) (by omega)
      rw [hdef] at hs
      simp [Connection.new] at hs
    have hidnot : id ∉ s.id_pool := by
      intro hmem
      rw [(hiff id hidlt).1 hmem] at hs
      exact Option.noConfusion hs
    refine ⟨⟨by simpa using hc, by simpa using hi, List.nodup_cons.2 ⟨hidnot, hnd⟩, ?_, ?_⟩,
      hidlt, List.mem_cons_self id s.id_pool, rfl, by simp, ?_⟩
    · intro i hi2
      rcases List.mem_cons.1 hi2 with hieq | himem
      · subst hieq; exact hidlt
      · exact hb i himem
    · intro i hilt
      by_cases hij : i = id
      · subst hij
        rw [getD_set_self s.conns i _ (Connection.new none) (by omega)]
        simp [Connection.reset]
      · rw [getD_set_ne s.conns id i _ (Connection.new none) (fun hh => hij hh.symm)]
        rw [← hiff i hilt]
        simp [List.mem_cons, hij]
    · intro j hj hjne hj2
      rcases List.mem_cons.1 hj2 with hjeq | hjmem
      · exact hjne hjeq
      · exact hj hjmem

theorem Epoll.WF_count (s : Epoll) (h : s.WF) :
    s.id_pool.length + s.inUseCount = s.capacity := by
  obtain ⟨hc, hi, hnd, hb, hiff⟩ := h
  have hperm : s.id_pool.Perm ((List.range s.capacity).filter
      (fun i => ((s.conns.getD i (Connection.new none)).stream).isNone)) := by
    rw [List.perm_ext_iff_of_nodup hnd
      (List.Nodup.filter _ (List.nodup_range s.capacity))]
    intro a
    simp only [List.mem_filter, List.mem_range]
    constructor
    · intro ha
      have halt := hb a ha
      refine ⟨halt, ?_⟩
      rw [(hiff a halt).1 ha]
      rfl
    · rintro ⟨halt, hnone⟩
      refine (hiff a halt).2 ?_
      cases hopt : (s.conns.getD a (Connection.new none)).stream with
      | none => rfl
      | some v =>
        rw [hopt] at hnone
        simp at hnone
  have hsplit := List.length_eq_length_filter_add
    (l := List.range s.capacity)
    (fun i => ((s.conns.getD i (Connection.new none)).stream).isNone)
  rw [List.length_range] at hsplit
  have hfun : List.filter
      (fun i => !((s.conns.getD i (Connection.new none)).stream).isNone)
      (List.range s.capacity) =
    List.filter (fun i => ((s.conns.getD i (Connection.new none)).stream).isSome)
      (List.range s.capacity) := by
    refine List.filter_congr ?_
    intro i _
    cases (s.conns.getD i (Connection.new none)).stream <;> rfl
  rw [hfun] at hsplit
  rw [hperm.length_eq, Epoll.inUseCount]
  omega

/-- Outcome of one admission phase of the worker loop. -/
inductive AdmissionResult where
  | panicked : AdmissionResult
  | blocked : AdmissionResult
  | ok (s : Epoll) (inbox : List Nat) : AdmissionResult
deriving DecidableEq, Repr

/-- The `while !self.epoll.is_full()` admission loop of `EpollThread::run`
(`epoll.rs` lines 273-280): keep `try_recv`-ing sockets off the inbox and
adding them until the pool is full or the inbox is drained; `none` marks a
run into `Epoll::add`'s expect-panic. -/
def fillLoop : Epoll → List Nat → Option (Epoll × List Nat)
  | s, [] => some (s, [])
  | s, t :: rest =>
    if s.is_full then some (s, t :: rest)
    else
      match s.add t with
      | none => none
      | some (s2, _) => fillLoop s2 rest

/-- The admission phase of `EpollThread::run` (`epoll.rs` lines 265-280):
if the pool is empty, block-receive one socket (`blocked` when the inbox
never yields one) and `add` it; then run the not-full `try_recv` loop.
`panicked` marks a run into `Epoll::add`'s expect-panic. -/
def admission (s : Epoll) (inbox : List Nat) : AdmissionResult :=
  if s.is_empty then
    match inbox with
    | [] => .blocked
    | t :: rest =>
      match s.add t with
      | none => .panicked
      | some (s2, _) =>
        match fillLoop s2 rest with
        | none => .panicked
        | some (s3, rest2) => .ok s3 rest2
  else
    match fillLoop s inbox with
    | none => .panicked
    | some (s2, rest2) => .ok s2 rest2

theorem fillLoop_nil (s : Epoll) : fillLoop s [] = some (s, []) := rfl

theorem fillLoop_cons (s : Epoll) (t : Nat) (rest : List Nat) :
    fillLoop s (t :: rest) =
      if s.is_full then some (s, t :: rest)
      else
        match s.add t with
        | none => none
        | some (s2, _) => fillLoop s2 rest := rfl

theorem fillLoop_WF : ∀ (inbox : List Nat) (s : Epoll), s.WF →
    ∃ s2 rest, fillLoop s inbox = some (s2, rest) ∧ s2.WF ∧ s2.capacity = s.capacity := by
  intro inbox
  induction inbox with
  | nil =>
    intro s hs
    exact ⟨s, [], rfl, hs, rfl⟩
  | cons t rest ih =>
    intro s hs
    by_cases hf : s.is_full = true
    · rw [fillLoop_cons, if_pos hf]
      exact ⟨s, t :: rest, rfl, hs, rfl⟩
    · rw [fillLoop_cons, if_neg hf]
      cases hp : s.id_pool with
      | nil =>
        exfalso
        apply hf
        simp [Epoll.is_full, hp]
      | cons pid rest2 =>
        cases hadd : s.add t with
        | none =>
          exfalso
          rw [Epoll.add, hp] at hadd
          exact Option.noConfusion hadd
        | some p =>
          obtain ⟨s2, pid2⟩ := p
          obtain ⟨hWF2, _, _, hcap2, _, _⟩ := Epoll.add_WF s t s2 pid2 hs hadd
          obtain ⟨s3, rest3, hfl, hWF3, hcap3⟩ := ih s2 hWF2
          refine ⟨s3, rest3, ?_, hWF3, by rw [hcap3]; exact hcap2⟩
          simp only [hadd]
          exact hfl

/-- C6: the connection-pool operations preserve well-formedness from
`Epoll::new` on: after every `add` and every `delete` the free-list length
plus the number of in-use slots equals the capacity, the free list holds
no duplicate slot id, the id handed out by `add` is absent from the free
list, and an id absent from the free list stays absent across any `add`
and across any `delete` of a different id — only `delete id` returns it. -/
theorem connection_pool_invariants :
    (∀ c : Nat, (Epoll.new c).WF ∧
      (Epoll.new c).id_pool.length + (Epoll.new c).inUseCount = c) ∧
    (∀ (s : Epoll) (t : Nat) (s2 : Epoll) (slot : Nat),
      s.WF → s.add t = some (s2, slot) →
      s2.WF ∧ slot ∉ s2.id_pool ∧ s2.id_pool.Nodup ∧
      s2.id_pool.length + s2.inUseCount = s2.capacity) ∧
    (∀ (s : Epoll) (slot : Nat) (s2 : Epoll),
      s.WF → s.delete slot = some s2 →
      s2.WF ∧ slot ∈ s2.id_pool ∧ s2.id_pool.Nodup ∧
      s2.id_pool.length + s2.inUseCount = s2.capacity) ∧
    (∀ (s : Epoll) (t : Nat) (s2 : Epoll) (slot j : Nat),
      s.WF → j ∉ s.id_pool → s.add t = some (s2, slot) → j ∉ s2.id_pool) ∧
    (∀ (s : Epoll) (slot : Nat) (s2 : Epoll) (j : Nat),
      s.WF → j ∉ s.id_pool → j ≠ slot → s.delete slot = some s2 →
      j ∉ s2.id_pool) := by
  refine ⟨?_, ?_, ?_, ?_, ?_⟩
  · intro c
    refine ⟨Epoll.new_WF c, ?_⟩
    have hcount := Epoll.WF_count (Epoll.new c) (Epoll.new_WF c)
    simpa using hcount
  · intro s t s2 slot hWF hadd
    obtain ⟨hWF2, _, hnot, _, _, _⟩ := Epoll.add_WF s t s2 slot hWF hadd
    exact ⟨hWF2, hnot, hWF2.2.2.1, Epoll.WF_count s2 hWF2⟩
  · intro s slot s2 hWF hdel
    obtain ⟨hWF2, _, hmem, _, _, _⟩ := Epoll.delete_WF s slot s2 hWF hdel
    exact ⟨hWF2, hmem, hWF2.2.2.1, Epoll.WF_count s2 hWF2⟩
  · intro s t s2 slot j hWF hj hadd
    exact (Epoll.add_WF s t s2 slot hWF hadd).2.2.2.2.2 j hj
  · intro s slot s2 j hWF hj hne hdel
    exact (Epoll.delete_WF s slot s2 hWF hdel).2.2.2.2.2 j hj hne

/-- The pool state after `(Epoll.new 2).add 7`: slot 1 was popped and holds
socket 7, slot 0 remains free. -/
def epollDemo : Epoll :=
  ⟨2, [Connection.new none, Connection.init (Connection.new none) 7], [0],
    [none, some .read]⟩

/-- Witness for `connection_pool_invariants`: `(Epoll.new 2).add 7` pops
slot 1, and in the resulting pool the invariants hold concretely. -/
theorem connection_pool_invariants_witness :
    (Epoll.new 2).add 7 = some (epollDemo, 1) ∧ epollDemo.WF ∧
    1 ∉ epollDemo.id_pool ∧
    epollDemo.id_pool.length + epollDemo.inUseCount = epollDemo.capacity := by
  have h := connection_pool_invariants.2.1 (Epoll.new 2) 7 epollDemo 1
    (by decide) (by decide)
  exact ⟨by decide, h.1, h.2.1, h.2.2.2⟩

/-- A one-slot pool whose single slot holds socket 5 and has just finished
reading a 17-byte request. -/
def connDemo : Connection := ⟨some 5, List.replicate REQUEST_SIZE 0, 17, 17, .read⟩

/-- The `Epoll` state around `connDemo`. -/
def epollInUse : Epoll := ⟨1, [connDemo], [], [some .read]⟩

/-- C7: on the Read→Write flip, `Epoll::modify` does not leave the slot's
stream field set: `Connection::reset` assigns `stream := None` (dropping,
and so closing, the socket). Evaluated on `epollInUse`: after
`modify 0 Write`, buffer size, buffer position, idx, action and interest
change as the claim says, but the stream field is `none` rather than the
original `some 5`, so the same client connection is not reusable across
the flip. -/
theorem modify_drops_stream :
    Epoll.modify epollInUse 0 .write =
      some ⟨1, [⟨none, List.replicate RESPONSE_SIZE 0, 0, 0, .write⟩], [], [some .write]⟩ ∧
    (Connection.reset connDemo .write).stream = none ∧
    (Connection.reset connDemo .write).stream ≠ connDemo.stream := by
  refine ⟨by decide, rfl, by decide⟩

/-- C10 counterexample: with `capacity = 0`, the worker loop's own
admission phase reaches `Epoll::add`'s panic: the pool is (vacuously)
empty, so the worker block-receives a socket and calls `add` on an empty
free list. -/
theorem admission_panic_at_capacity_zero :
    admission (Epoll.new 0) [7] = .panicked := by decide

/-- C10 (amended): `Epoll::add` panics exactly when the free list is
empty, and for every worker whose pool capacity is at least 1 the
admission phase of `EpollThread::run` never reaches that panic — `add`
runs either after the blocking receive taken when the pool is empty (the
free list then holds all `capacity ≥ 1` ids) or under the not-full guard
(free list non-empty) — and any pool it produces is still well-formed
with unchanged capacity, so a worker never admits a connection beyond its
capacity. -/
theorem admission_never_panics (s : Epoll) (inbox : List Nat)
    (hcap : 1 ≤ s.capacity) (hWF : s.WF) :
    (∀ t, s.add t = none ↔ s.id_pool = []) ∧
    admission s inbox ≠ .panicked ∧
    (∀ s2 rest, admission s inbox = .ok s2 rest → s2.WF ∧ s2.capacity = s.capacity) := by
  have hone : admission s inbox = .blocked ∨
      ∃ s3 rest3, admission s inbox = .ok s3 rest3 ∧ s3.WF ∧ s3.capacity = s.capacity := by
    rw [admission.eq_def]
    by_cases he : s.is_empty = true
    · rw [if_pos he]
      cases inbox with
      | nil => exact Or.inl rfl
      | cons t rest =>
        refine Or.inr ?_
        cases hp : s.id_pool with
        | nil =>
          exfalso
          simp only [Epoll.is_empty, beq_iff_eq] at he
          rw [hp] at he
          simp at he
          omega
        | cons pid rest2 =>
          cases hadd : s.add t with
          | none =>
            exfalso
            rw [Epoll.add, hp] at hadd
            exact Option.noConfusion hadd
          | some p =>
            obtain ⟨s2, pid2⟩ := p
            obtain ⟨hWF2, _, _, hcap2, _, _⟩ := Epoll.add_WF s t s2 pid2 hWF hadd
            obtain ⟨s3, rest3, hfl, hWF3, hcap3⟩ := fillLoop_WF rest s2 hWF2
            refine ⟨s3, rest3, ?_, hWF3, by rw [hcap3]; exact hcap2⟩
            simp only [hadd, hfl]
    · rw [if_neg he]
      refine Or.inr ?_
      obtain ⟨s3, rest3, hfl, hWF3, hcap3⟩ := fillLoop_WF inbox s hWF
      refine ⟨s3, rest3, ?_, hWF3, hcap3⟩
      simp only [hfl]
  refine ⟨?_, ?_, ?_⟩
  · intro t
    cases hp : s.id_pool with
    | nil =>
      rw [Epoll.add, hp]
      simp
    | cons pid rest =>
      rw [Epoll.add, hp]
      simp
  · rcases hone with hb2 | ⟨s3, r3, hok, _, _⟩
    · rw [hb2]
      intro hcontra
      exact AdmissionResult.noConfusion hcontra
    · rw [hok]
      intro hcontra
      exact AdmissionResult.noConfusion hcontra
  · intro s2 rest hadm
    rcases hone with hb2 | ⟨s3, r3, hok, hWF3, hcap3⟩
    · rw [hadm] at hb2
      exact AdmissionResult.noConfusion hb2
    · rw [hadm] at hok
      injection hok with h1 h2
      subst h1
      exact ⟨hWF3, hcap3⟩

/-- Witness for `admission_never_panics`: a fresh one-slot worker admitting
socket 5 ends in a well-formed `ok` state, not a panic. -/
theorem admission_never_panics_witness :
    1 ≤ (Epoll.new 1).capacity ∧ (Epoll.new 1).WF ∧
    admission (Epoll.new 1) [5] =
      .ok ⟨1, [Connection.init (Connection.new none) 5], [], [some .read]⟩ [] ∧
    (⟨1, [Connection.init (Connection.new none) 5], [], [some .read]⟩ : Epoll).WF := by
  refine ⟨by decide, by decide, by decide, ?_⟩
  exact ((admission_never_panics (Epoll.new 1) [5] (by decide) (by decide)).2.2
    ⟨1, [Connection.init (Connection.new none) 5], [], [some .read]⟩ [] (by decide)).1

end Bench
